import Mathlib

/-!
Shallow embedding of the speako CEFR data pipeline (files under `src/ml`:
`cefr_utils.py`, `cefr_trainer.py`, `train_cefr_minilm.py`,
`train_cefr_deberta.py`, `analyze_data.py`).

Python strings are modelled as `List Char` (ASCII texts; `str.split()`,
`str.strip()` use `Char.isWhitespace`).  The global pseudo-random generator
(`random.random()` / `random.randint`) is modelled as an explicit state
`RandGen` carrying an infinite stream of float draws (rationals, intended in
`[0,1)`) and a stream of raw integer draws; `randint lo hi` clamps its raw
draw into `[lo, hi]` by a modulus, matching the guarantee (not the exact
distribution) of Python's `randint`.
-/

/-- Python `str.split()` (no separator): accumulator-based whitespace
tokenizer; `cur` holds the current word reversed. -/
def pySplitAux : List Char → List Char → List (List Char)
  | [], cur => if cur = [] then [] else [cur.reverse]
  | c :: rest, cur =>
    if c.isWhitespace then
      if cur = [] then pySplitAux rest [] else cur.reverse :: pySplitAux rest []
    else pySplitAux rest (c :: cur)

/-- Python `text.split()`. -/
def pySplit (s : List Char) : List (List Char) := pySplitAux s []

/-- Python `" ".join(l)`. -/
def joinSp : List (List Char) → List Char
  | [] => []
  | [w] => w
  | w :: rest => w ++ ' ' :: joinSp rest

/-- Strip characters satisfying `p` from both ends (Python `str.strip`). -/
def stripWhile (p : Char → Bool) (l : List Char) : List Char :=
  ((l.dropWhile p).reverse.dropWhile p).reverse

/-- Python `str.strip()` (whitespace). -/
def pyStrip (l : List Char) : List Char := stripWhile Char.isWhitespace l

/-- Python `str.upper()` (ASCII). -/
def pyUpper (l : List Char) : List Char := l.map Char.toUpper

/-- Python `s.split(sep)` for a single-character separator, keeping empty
pieces. -/
def splitOnCharAux (sep : Char) : List Char → List Char → List (List Char)
  | [], cur => [cur.reverse]
  | c :: rest, cur =>
    if c = sep then cur.reverse :: splitOnCharAux sep rest []
    else splitOnCharAux sep rest (c :: cur)

/-- Python `s.split(sep)`, single-character separator. -/
def splitOnChar (sep : Char) (s : List Char) : List (List Char) :=
  splitOnCharAux sep s []

/-- Python `l * n` on lists: `n` concatenated copies of `l`. -/
def pyListMul (l : List α) (n : Nat) : List α := (List.replicate n l).flatten

/-- The training-record shape `{"text": ..., "label": ..., "source": ...}`
shared by every parser and adapter. -/
structure LabeledRecord where
  text : List Char
  label : Nat
  source : List Char
deriving DecidableEq

/-- The process-wide label vocabulary `LABEL2ID` of `cefr_utils.py`. -/
def LABEL2ID : List (List Char × Nat) :=
  [("A1".data, 0), ("A2".data, 1), ("B1".data, 2),
   ("B2".data, 3), ("C1".data, 4), ("C2".data, 5)]

/-- Dictionary lookup `LABEL2ID[s]` / membership test, as an `Option`. -/
def label2id (s : List Char) : Option Nat :=
  (LABEL2ID.find? (fun p => decide (p.1 = s))).map Prod.snd

/-! ## Noise augmenter (`augment_text_with_noise`, cefr_utils.py lines 11-54) -/

/-- Explicit model of the global `random` state: a stream of
`random.random()` draws and a stream of raw `randint` draws, each with a
cursor. -/
structure RandGen where
  floats : Nat → ℚ
  fidx : Nat
  ints : Nat → Nat
  iidx : Nat

/-- One `random.random()` draw. -/
def RandGen.rand (g : RandGen) : ℚ × RandGen :=
  (g.floats g.fidx, ⟨g.floats, g.fidx + 1, g.ints, g.iidx⟩)

/-- One `random.randint(lo, hi)` draw (value clamped into `[lo, hi]`). -/
def RandGen.randint (g : RandGen) (lo hi : Nat) : Nat × RandGen :=
  (lo + g.ints g.iidx % (hi + 1 - lo), ⟨g.floats, g.fidx, g.ints, g.iidx + 1⟩)

/-- Swap the characters at positions `i` and `i+1` (the transpose action of
the augmenter). -/
def transposeAt (w : List Char) (i : Nat) : List Char :=
  w.take i ++ (match w.drop i with
    | a :: b :: rest => b :: a :: rest
    | l => l)

/-- The body of the per-word loop of `augment_text_with_noise`: one word,
its fresh draw `r`, and the current generator.  Returns `none` when the word
is dropped.  (For the transpose rule, the source's inner guard
`len(chars) > 1` is implied by `len(word) > 3` and the rule then always
appends and continues, so the branches form an if-chain.) -/
def noiseWord (w : List Char) (r : ℚ) (g : RandGen) :
    Option (List Char) × RandGen :=
  if w.length < 4 ∧ r < mkRat 3 100 then (none, g)
  else if 3 < w.length ∧ r < mkRat 8 100 then
    let p := g.randint 0 (w.length - 2)
    (some (transposeAt w p.1), p.2)
  else if 4 < w.length ∧ r < mkRat 11 100 then
    let p := g.randint 1 (w.length - 2)
    (some (w.eraseIdx p.1), p.2)
  else (some w, g)

/-- The `for word in words` loop: draws one `random.random()` per word and
collects the surviving words. -/
def noiseWords : List (List Char) → RandGen → List (List Char) × RandGen
  | [], g => ([], g)
  | w :: rest, g =>
    let q := g.rand
    let s := noiseWord w q.1 q.2
    let t := noiseWords rest s.2
    ((match s.1 with
      | none => t.1
      | some w2 => w2 :: t.1), t.2)

/-- `augment_text_with_noise(text)` (cefr_utils.py lines 11-54; the unused
`noise_prob` parameter is omitted).  Empty input is returned as is; then one
draw decides the global skip (`if random.random() > 0.8: return text`);
otherwise the per-word loop runs and the result is
`" ".join(new_words)`. -/
def augment_text_with_noise (text : List Char) (g : RandGen) :
    List Char × RandGen :=
  if text = [] then (text, g)
  else
    let q := g.rand
    if mkRat 4 5 < q.1 then (text, q.2)
    else
      let s := noiseWords (pySplit text) q.2
      (joinSp s.1, s.2)

/-- Generator with constant float stream `r` and zero integer stream. -/
def constGen (r : ℚ) : RandGen := ⟨fun _ => r, 0, fun _ => 0, 0⟩

/-- Observable for "the call took the global-skip branch": the input comes
back unchanged and exactly one float draw was consumed. -/
def skipProp (text : List Char) (g : RandGen) : Prop :=
  (augment_text_with_noise text g).1 = text ∧
  (augment_text_with_noise text g).2.fidx = g.fidx + 1

instance skipPropDecidable (t : List Char) (g : RandGen) :
    Decidable (skipProp t g) :=
  inferInstanceAs (Decidable ((augment_text_with_noise t g).1 = t ∧
    (augment_text_with_noise t g).2.fidx = g.fidx + 1))

/-- Observable: the word was dropped. -/
def droppedB (w : List Char) (r : ℚ) (g : RandGen) : Bool :=
  ((noiseWord w r g).1).isNone

/-- Observable: the word was mutated (one `randint` consumed) keeping its
length — the transpose action. -/
def mutatedSameLenB (w : List Char) (r : ℚ) (g : RandGen) : Bool :=
  match noiseWord w r g with
  | (some v, g2) => decide (v.length = w.length) && decide (g2.iidx = g.iidx + 1)
  | (none, _) => false

/-- Observable: the word was mutated (one `randint` consumed) losing one
character — the interior-delete action. -/
def mutatedShorterB (w : List Char) (r : ℚ) (g : RandGen) : Bool :=
  match noiseWord w r g with
  | (some v, g2) => decide (v.length + 1 = w.length) && decide (g2.iidx = g.iidx + 1)
  | (none, _) => false

/-- Number of grid points `r = (2k+1)/200`, `k < 100` (the midpoints of the
uniform 100-cell partition of `[0,1)`), on which `f` holds: the discretised
probability (in percent) of an event decided by a single uniform draw. -/
def gridCount (f : ℚ → Bool) : Nat :=
  ((List.range 100).filter (fun (k : Nat) => f (mkRat (2 * k + 1) 200))).length

/-! ## STM parser (`parse_stm_file`, cefr_utils.py lines 57-88) -/

/-- Does the stripped line start with the comment marker `;;`? -/
def startsWithSemis : List Char → Bool
  | ';' :: ';' :: _ => true
  | _ => false

/-- `re.search(r"<[^>]+>", line)`: scan left to right for the first `<`
followed by at least one non-`>` character and then `>`; return the matched
group together with the remainder of the line after the match. -/
def findTag : List Char → Option (List Char × List Char)
  | [] => none
  | c :: rest =>
    if c = '<' then
      match rest.dropWhile (fun d => !(d = '>')) with
      | '>' :: after =>
        if rest.takeWhile (fun d => !(d = '>')) = [] then findTag rest
        else some ('<' :: (rest.takeWhile (fun d => !(d = '>')) ++ ['>']), after)
      | _ => findTag rest
    else findTag rest

/-- Python `label_str.strip("<>")`. -/
def stripAngles (l : List Char) : List Char :=
  stripWhile (fun c => c = '<' || c = '>') l

/-- The recognized level tokens of the parser's membership test. -/
def levelTokens : List (List Char) :=
  ["A1".data, "A2".data, "B1".data, "B2".data, "C1".data, "C2".data, "C".data]

/-- The `for part in parts` scan: first comma-separated field whose stripped
form is a recognized level token, with the legacy `C` mapped to `C1`. -/
def findCefr : List (List Char) → Option (List Char)
  | [] => none
  | p :: rest =>
    let q := pyStrip p
    if q ∈ levelTokens then some (if q = ['C'] then "C1".data else q)
    else findCefr rest

/-- Processing of one raw line of `parse_stm_file` (the source's local
variables `line = line.strip()` and `text` are inlined). -/
def parseStmLine (rawLine : List Char) : List LabeledRecord :=
  if pyStrip rawLine = [] then []
  else if startsWithSemis (pyStrip rawLine) then []
  else
    match findTag (pyStrip rawLine) with
    | none => []
    | some (tag, after) =>
      if pyStrip after = [] then []
      else
        match findCefr (splitOnChar ',' (stripAngles tag)) with
        | none => []
        | some cefr =>
          match label2id cefr with
          | some id => [⟨pyStrip after, id, "stm".data⟩]
          | none => []

/-- `parse_stm_file(content)` (cefr_utils.py lines 57-88): split on newlines
and process each line. -/
def parse_stm_file (content : List Char) : List LabeledRecord :=
  (splitOnChar '\n' content).flatMap parseStmLine

/-! ## Text chunker (`chunk_text`, cefr_utils.py lines 91-118) -/

/-- Is `c` one of the sentence-ending characters `.`, `!`, `?`. -/
def isSentEnd (c : Char) : Bool := c = '.' || c = '!' || c = '?'

/-- Is the last scanned character (head of the reversed current unit) a
sentence ender? -/
def headIsSentEnd : List Char → Bool
  | p :: _ => isSentEnd p
  | [] => false

/-- `re.split(r"(?<=[.!?])\s+", text)`: cut the text at every maximal
whitespace run whose preceding character is a sentence ender, removing the
run.  `cur` holds the current unit reversed (its head is the character just
before the scan position); `run = true` means the scanner is inside the
whitespace run being removed (so `cur = []`). -/
def sentSplitGo (run : Bool) : List Char → List Char → List (List Char)
  | [], cur => [cur.reverse]
  | c :: rest, cur =>
    if run then
      if c.isWhitespace then sentSplitGo true rest cur
      else sentSplitGo false rest (c :: cur)
    else
      if c.isWhitespace && headIsSentEnd cur then
        cur.reverse :: sentSplitGo true rest []
      else sentSplitGo false rest (c :: cur)

/-- Sentence-unit split of a document. -/
def sentSplit (text : List Char) : List (List Char) := sentSplitGo false text []

/-- The accumulation loop of `chunk_text`: greedily pack sentence units into
groups of at most `maxW` words (flushing the current non-empty group when it
would overflow); units without words are skipped. -/
def chunkLoop (maxW : Nat) :
    List (List Char) → List (List Char) → Nat → List (List (List Char))
  | [], current, _ => if current = [] then [] else [current]
  | u :: rest, current, curLen =>
    let ws := pySplit u
    if ws = [] then chunkLoop maxW rest current curLen
    else if maxW < curLen + ws.length ∧ ¬ current = [] then
      current :: chunkLoop maxW rest [u] ws.length
    else chunkLoop maxW rest (current ++ [u]) (curLen + ws.length)

/-- `chunk_text(text, min_words, max_words)` (cefr_utils.py lines 91-118):
group sentence units, join each group with single spaces, then keep only the
chunks with at least `min_words` words. -/
def chunk_text (text : List Char) (minW : Nat := 5) (maxW : Nat := 50) :
    List (List Char) :=
  ((chunkLoop maxW (sentSplit text) [] 0).map joinSp).filter
    (fun c => decide (minW ≤ (pySplit c).length))

/-! ## Written-corpus and remote-dataset adapters -/

/-- Python `s.replace("+", "").replace("-", "")`. -/
def stripModifiers (l : List Char) : List Char :=
  l.filter (fun c => !(c = '+' || c = '-'))

/-- One row of `parse_wi_corpus` (cefr_utils.py lines 121-161): `text` is
`none` when the cell is not a string; blank text rows and rows whose
normalized level is not in the vocabulary are dropped; otherwise one record
per chunk of the essay. -/
def wiRowEntries (text : Option (List Char)) (rawLabel : List Char) :
    List LabeledRecord :=
  match text with
  | none => []
  | some t =>
    if pyStrip t = [] then []
    else
      match label2id (stripModifiers (pyUpper (pyStrip rawLabel))) with
      | none => []
      | some id => (chunk_text t 5 50).map (fun c => ⟨c, id, "wi".data⟩)

/-- Numeric-level decision of `load_universal_cefr` (cefr_utils.py lines
248-259): `none` models a failed `int(...)` conversion; ints outside
`[0, 5]` are skipped. -/
def universalNumericLabel (level : Option Int) : Option Nat :=
  match level with
  | none => none
  | some n => if 0 ≤ n ∧ n ≤ 5 then some n.toNat else none

/-- String-level decision of `load_universal_cefr` (cefr_utils.py lines
260-268): strip, uppercase, drop modifier suffix characters, then look up. -/
def universalStringLabel (raw : List Char) : Option Nat :=
  label2id (stripModifiers (pyUpper (pyStrip raw)))

/-- An item of the remote `UniversalCEFR` dataset as consumed by
`map_hf_labels`. -/
structure HfExample where
  text : List Char
  cefr_level : List Char

/-- `map_hf_labels` (cefr_trainer.py lines 96-102, train_cefr_minilm.py
lines 245-251): `LABEL2ID.get(label, 0)` with `label` the uppercased,
stripped level string. -/
def map_hf_labels (ex : HfExample) : LabeledRecord :=
  ⟨ex.text, (label2id (pyStrip (pyUpper ex.cefr_level))).getD 0, "hf".data⟩

/-! ## Corpus assembly (`train_model`, cefr_trainer.py lines 41-116) -/

/-- The `ValueError("No training data loaded!")` message. -/
def noDataMsg : List Char := "No training data loaded!".data

/-- Corpus assembly of `train_model` (mirrored by `train` in
train_cefr_minilm.py): `stm` / `wi` are the records surviving the local
loads (file errors already recovered to `[]`), `hf = some l` models a remote
load that succeeded with records `l` (appended even when empty), `hf = none`
a load that raised and was caught.  Non-empty STM data is oversampled by
exact duplication (`stm_entries * 4`); if no dataset was appended, assembly
raises the configuration error, otherwise the datasets are concatenated (the
seeded shuffle and the split happen downstream of this result). -/
def assemble (use_stm use_wi use_hf : Bool) (stm wi : List LabeledRecord)
    (hf : Option (List LabeledRecord)) :
    Except (List Char) (List LabeledRecord) :=
  let ds1 : List (List LabeledRecord) :=
    if use_stm = true ∧ ¬ stm = [] then [pyListMul stm 4] else []
  let ds2 := ds1 ++ (if use_wi = true ∧ ¬ wi = [] then [wi] else [])
  let ds3 := ds2 ++ (match use_hf, hf with
    | true, some l => [l]
    | _, _ => [])
  if ds3 = [] then Except.error noDataMsg else Except.ok ds3.flatten


/-! ## Lemmas: grid arithmetic -/

/-- Helper: a Bool equals the decision of any proposition it is equivalent
to. -/
theorem bool_eq_decide {b : Bool} {p : Prop} [Decidable p]
    (h : b = true ↔ p) : b = decide p := by
  cases b with
  | true => exact (decide_eq_true (h.mp rfl)).symm
  | false =>
    by_cases hp : p
    · exact absurd (h.mpr hp) (by simp)
    · simp [hp]

/-- Grid midpoint versus the 0.03 threshold. -/
theorem grid_lt3 (k : Nat) : (mkRat (2 * k + 1) 200 < mkRat 3 100) ↔ k < 3 := by
  rw [Rat.mkRat_eq_div, Rat.mkRat_eq_div,
    div_lt_div_iff₀ (by norm_num) (by norm_num)]
  push_cast
  constructor
  · intro h
    by_contra hk
    push_neg at hk
    have h2 : (3 : ℚ) ≤ (k : ℚ) := by exact_mod_cast hk
    nlinarith
  · intro h
    have h2 : (k : ℚ) ≤ 2 := by exact_mod_cast Nat.lt_succ_iff.mp h
    nlinarith

/-- Grid midpoint versus the 0.08 threshold. -/
theorem grid_lt8 (k : Nat) : (mkRat (2 * k + 1) 200 < mkRat 8 100) ↔ k < 8 := by
  rw [Rat.mkRat_eq_div, Rat.mkRat_eq_div,
    div_lt_div_iff₀ (by norm_num) (by norm_num)]
  push_cast
  constructor
  · intro h
    by_contra hk
    push_neg at hk
    have h2 : (8 : ℚ) ≤ (k : ℚ) := by exact_mod_cast hk
    nlinarith
  · intro h
    have h2 : (k : ℚ) ≤ 7 := by exact_mod_cast Nat.lt_succ_iff.mp h
    nlinarith

/-- Grid midpoint versus the 0.11 threshold. -/
theorem grid_lt11 (k : Nat) : (mkRat (2 * k + 1) 200 < mkRat 11 100) ↔ k < 11 := by
  rw [Rat.mkRat_eq_div, Rat.mkRat_eq_div,
    div_lt_div_iff₀ (by norm_num) (by norm_num)]
  push_cast
  constructor
  · intro h
    by_contra hk
    push_neg at hk
    have h2 : (11 : ℚ) ≤ (k : ℚ) := by exact_mod_cast hk
    nlinarith
  · intro h
    have h2 : (k : ℚ) ≤ 10 := by exact_mod_cast Nat.lt_succ_iff.mp h
    nlinarith

/-- Grid midpoint at or above the 0.08 threshold. -/
theorem grid_le8 (k : Nat) : (mkRat 8 100 ≤ mkRat (2 * k + 1) 200) ↔ 8 ≤ k := by
  rw [Rat.mkRat_eq_div, Rat.mkRat_eq_div,
    div_le_div_iff₀ (by norm_num) (by norm_num)]
  push_cast
  constructor
  · intro h
    by_contra hk
    push_neg at hk
    have h2 : (k : ℚ) ≤ 7 := by exact_mod_cast Nat.lt_succ_iff.mp hk
    nlinarith
  · intro h
    have h2 : (8 : ℚ) ≤ (k : ℚ) := by exact_mod_cast h
    nlinarith

/-- Grid midpoint versus the 0.8 global-skip threshold. -/
theorem grid_skip (k : Nat) : (mkRat 4 5 < mkRat (2 * k + 1) 200) ↔ 80 ≤ k := by
  rw [Rat.mkRat_eq_div, Rat.mkRat_eq_div,
    div_lt_div_iff₀ (by norm_num) (by norm_num)]
  push_cast
  constructor
  · intro h
    by_contra hk
    push_neg at hk
    have h2 : (k : ℚ) ≤ 79 := by exact_mod_cast Nat.lt_succ_iff.mp hk
    nlinarith
  · intro h
    have h2 : (80 : ℚ) ≤ (k : ℚ) := by exact_mod_cast h
    nlinarith

/-! ## Lemmas: the noise augmenter -/

/-- A word step never consumes a float draw. -/
theorem noiseWord_fidx (w : List Char) (r : ℚ) (g : RandGen) :
    (noiseWord w r g).2.fidx = g.fidx := by
  unfold noiseWord RandGen.randint
  split_ifs <;> rfl

/-- A word step leaves the float stream unchanged. -/
theorem noiseWord_floats (w : List Char) (r : ℚ) (g : RandGen) :
    (noiseWord w r g).2.floats = g.floats := by
  unfold noiseWord RandGen.randint
  split_ifs <;> rfl

/-- A word step leaves the integer stream unchanged. -/
theorem noiseWord_ints (w : List Char) (r : ℚ) (g : RandGen) :
    (noiseWord w r g).2.ints = g.ints := by
  unfold noiseWord RandGen.randint
  split_ifs <;> rfl

/-- A word step consumes at most one integer draw. -/
theorem noiseWord_iidx_le (w : List Char) (r : ℚ) (g : RandGen) :
    (noiseWord w r g).2.iidx ≤ g.iidx + 1 := by
  unfold noiseWord RandGen.randint
  split_ifs <;> simp

/-- The word loop consumes exactly one float draw per word. -/
theorem noiseWords_fidx :
    ∀ (ws : List (List Char)) (g : RandGen),
      (noiseWords ws g).2.fidx = g.fidx + ws.length
  | [], g => by simp [noiseWords]
  | w :: rest, g => by
    simp only [noiseWords, RandGen.rand]
    rw [noiseWords_fidx rest, noiseWord_fidx]
    simp [List.length_cons]
    omega

/-- Global-skip branch of the augmenter. -/
theorem augment_skip_of_gt (text : List Char) (g : RandGen) (h : ¬ text = [])
    (hr : mkRat 4 5 < g.floats g.fidx) :
    augment_text_with_noise text g =
      (text, ⟨g.floats, g.fidx + 1, g.ints, g.iidx⟩) := by
  unfold augment_text_with_noise RandGen.rand
  rw [if_neg h, if_pos hr]

/-- Per-word branch of the augmenter. -/
theorem augment_no_skip (text : List Char) (g : RandGen) (h : ¬ text = [])
    (hr : ¬ mkRat 4 5 < g.floats g.fidx) :
    augment_text_with_noise text g =
      (joinSp (noiseWords (pySplit text)
          ⟨g.floats, g.fidx + 1, g.ints, g.iidx⟩).1,
        (noiseWords (pySplit text)
          ⟨g.floats, g.fidx + 1, g.ints, g.iidx⟩).2) := by
  unfold augment_text_with_noise RandGen.rand
  rw [if_neg h, if_neg hr]

/-- The observable global skip happens exactly when the first draw exceeds
4/5. -/
theorem skipProp_iff (text : List Char) (g : RandGen) (h : ¬ text = []) :
    skipProp text g ↔ mkRat 4 5 < g.floats g.fidx := by
  constructor
  · intro hs
    by_contra hr
    rcases hs with ⟨h1, h2⟩
    rw [augment_no_skip text g h hr] at h1 h2
    rw [noiseWords_fidx] at h2
    simp only [RandGen.fidx] at h2
    have hlen : (pySplit text).length = 0 := by omega
    rw [List.length_eq_zero.mp hlen] at h1
    simp [noiseWords, joinSp] at h1
    exact h h1
  · intro hr
    constructor <;> rw [augment_skip_of_gt text g h hr]

/-- C1 (counterexample): formalising "with probability 0.8 the first draw
skips augmentation" as "80 of the 100 uniform grid midpoints for the first
draw lead to the observable skip", the count is in fact 20, not 80: the code
skips only when the draw exceeds 0.8 (`if random.random() > 0.8`). -/
theorem augment_skip_not_prob08 :
    ¬ ((((List.range 100).filter (fun (k : Nat) =>
        decide (skipProp "hello".data
          (constGen (mkRat (2 * k + 1) 200))))).length) = 80) := by
  decide

/-- C1 (amended): for every non-empty text, the first draw decides the
global skip, but with the opposite proportions: the call observably skips
exactly when the first draw exceeds 4/5, hence on 20 of the 100 uniform
grid midpoints (probability 0.2), and proceeds to per-word perturbation on
the other 80 (probability 0.8). -/
theorem augment_skip_prob02 :
    ∀ (text : List Char) (g : RandGen), ¬ text = [] →
      (skipProp text g ↔ mkRat 4 5 < g.floats g.fidx) ∧
      (∀ (f : Nat → ℚ) (n : Nat → Nat),
        (((List.range 100).filter (fun (k : Nat) =>
          decide (skipProp text (RandGen.mk
            (fun i => if i = 0 then mkRat (2 * k + 1) 200 else f i)
            0 n 0)))).length) = 20) := by
  intro text g h
  refine ⟨skipProp_iff text g h, ?_⟩
  intro f n
  have hcong :
      ((List.range 100).filter (fun (k : Nat) =>
        decide (skipProp text (RandGen.mk
          (fun i => if i = 0 then mkRat (2 * k + 1) 200 else f i) 0 n 0))))
      = ((List.range 100).filter (fun k => decide (80 ≤ k))) := by
    refine List.filter_congr (fun k _ => ?_)
    rw [decide_eq_decide, skipProp_iff text _ h]
    show (mkRat 4 5 < (if (0 : Nat) = 0 then mkRat (2 * k + 1) 200 else f 0))
        ↔ 80 ≤ k
    rw [if_pos rfl]
    exact grid_skip k
  rw [hcong]
  decide

/-- C1 (witness): the amended characterisation applied to the concrete text
"hi" and a concrete generator. -/
theorem augment_skip_prob02_w :
    (skipProp "hi".data (constGen (mkRat 1 2))
        ↔ mkRat 4 5 < (constGen (mkRat 1 2)).floats (constGen (mkRat 1 2)).fidx) ∧
    (∀ (f : Nat → ℚ) (n : Nat → Nat),
      (((List.range 100).filter (fun (k : Nat) =>
        decide (skipProp "hi".data (RandGen.mk
          (fun i => if i = 0 then mkRat (2 * k + 1) 200 else f i)
          0 n 0)))).length) = 20) :=
  augment_skip_prob02 "hi".data (constGen (mkRat 1 2)) (by decide)

/-- Transposing two adjacent characters preserves the word length. -/
theorem transposeAt_length (w : List Char) (i : Nat) :
    (transposeAt w i).length = w.length := by
  unfold transposeAt
  rw [List.length_append, List.length_take]
  have hd : (match w.drop i with
      | a :: b :: rest => b :: a :: rest
      | l => l).length = (w.drop i).length := by
    cases hw : w.drop i with
    | nil => rfl
    | cons a t => cases t <;> rfl
  rw [hd, List.length_drop]
  omega

/-- The word is dropped exactly under the first rule's guard. -/
theorem noiseWord_drop_iff (w : List Char) (r : ℚ) (g : RandGen) :
    (noiseWord w r g).1 = none ↔ (w.length < 4 ∧ r < mkRat 3 100) := by
  unfold noiseWord
  split_ifs with h1 h2 h3 <;> simp [*]

/-- The transpose observable fires exactly under the second rule's guard
(`len(word) > 3 and r < 0.08`): the first rule's length gate is disjoint, so
the whole interval `[0, 0.08)` transposes. -/
theorem noiseWord_transpose_iff (w : List Char) (r : ℚ) (g : RandGen) :
    mutatedSameLenB w r g = true ↔ (3 < w.length ∧ r < mkRat 8 100) := by
  unfold mutatedSameLenB noiseWord RandGen.randint
  split_ifs with h1 h2 h3
  · obtain ⟨h1a, _⟩ := h1
    simp only [false_iff]
    rintro ⟨hl, _⟩
    omega
  · simp [transposeAt_length, h2]
  · obtain ⟨h3a, _⟩ := h3
    have hpos : 0 < w.length - 2 := by omega
    have hidx : 1 + g.ints g.iidx % (w.length - 2 + 1 - 1) < w.length := by
      have hm := Nat.mod_lt (g.ints g.iidx) (show 0 < w.length - 2 + 1 - 1 by omega)
      omega
    simp only [List.length_eraseIdx_of_lt hidx]
    have hne : ¬ (w.length - 1 = w.length) := by omega
    simp [hne, h2]
  · simp [h2]

/-- The interior-delete observable fires exactly on
`len(word) > 4 and 0.08 ≤ r < 0.11`. -/
theorem noiseWord_delete_iff (w : List Char) (r : ℚ) (g : RandGen) :
    mutatedShorterB w r g = true ↔
      (4 < w.length ∧ mkRat 8 100 ≤ r ∧ r < mkRat 11 100) := by
  unfold mutatedShorterB noiseWord RandGen.randint
  split_ifs with h1 h2 h3
  · obtain ⟨h1a, _⟩ := h1
    simp only [false_iff]
    rintro ⟨hl, _, _⟩
    omega
  · obtain ⟨_, h2b⟩ := h2
    have hne : ¬ (w.length + 1 = w.length) := by omega
    simp only [transposeAt_length]
    rw [decide_eq_false hne]
    simp only [Bool.false_and, Bool.false_eq_true, false_iff]
    rintro ⟨_, hge, _⟩
    exact absurd h2b (not_lt.mpr hge)
  · obtain ⟨h3a, h3b⟩ := h3
    have hpos : 0 < w.length - 2 := by omega
    have hidx : 1 + g.ints g.iidx % (w.length - 2 + 1 - 1) < w.length := by
      have hm := Nat.mod_lt (g.ints g.iidx) (show 0 < w.length - 2 + 1 - 1 by omega)
      omega
    simp only [List.length_eraseIdx_of_lt hidx]
    have heq : w.length - 1 + 1 = w.length := by omega
    have hge : mkRat 8 100 ≤ r := by
      by_contra hlt
      exact h2 ⟨by omega, not_le.mp hlt⟩
    simp [heq, h3a, h3b, hge]
  · have hne : ¬ (w.length + 1 = w.length) := by omega
    show (decide (w.length + 1 = w.length) && decide (g.iidx = g.iidx + 1)) = true ↔
      4 < w.length ∧ mkRat 8 100 ≤ r ∧ r < mkRat 11 100
    rw [decide_eq_false hne]
    simp only [Bool.false_and, Bool.false_eq_true, false_iff]
    rintro ⟨hl, _, hr11⟩
    exact h3 ⟨by omega, hr11⟩

/-- When none of the three guards fires, the word and the generator pass
through unchanged. -/
theorem noiseWord_keep (w : List Char) (r : ℚ) (g : RandGen)
    (h1 : ¬ (w.length < 4 ∧ r < mkRat 3 100))
    (h2 : ¬ (3 < w.length ∧ r < mkRat 8 100))
    (h3 : ¬ (4 < w.length ∧ r < mkRat 11 100)) :
    noiseWord w r g = (some w, g) := by
  unfold noiseWord
  rw [if_neg h1, if_neg h2, if_neg h3]

/-- Drop rate on the grid for a word inside the drop length gate: 3%. -/
theorem droppedB_gridCount (w : List Char) (g : RandGen) (hw : w.length < 4) :
    gridCount (fun r => droppedB w r g) = 3 := by
  unfold gridCount
  have hcong : ((List.range 100).filter
        (fun (k : Nat) => droppedB w (mkRat (2 * k + 1) 200) g))
      = ((List.range 100).filter (fun k => decide (k < 3))) := by
    refine List.filter_congr (fun k _ => ?_)
    refine bool_eq_decide ?_
    unfold droppedB
    rw [Option.isNone_iff_eq_none, noiseWord_drop_iff]
    constructor
    · rintro ⟨_, hr⟩
      exact (grid_lt3 k).mp hr
    · intro hk
      exact ⟨hw, (grid_lt3 k).mpr hk⟩
  rw [hcong]
  decide

/-- Transpose rate on the grid for a word inside the transpose length gate:
8%, not 5% — the drop rule's length gate is disjoint from the transpose
gate, so the nested thresholds do not shave 0.03 off this branch. -/
theorem transposeB_gridCount (w : List Char) (g : RandGen) (hw : 3 < w.length) :
    gridCount (fun r => mutatedSameLenB w r g) = 8 := by
  unfold gridCount
  have hcong : ((List.range 100).filter
        (fun (k : Nat) => mutatedSameLenB w (mkRat (2 * k + 1) 200) g))
      = ((List.range 100).filter (fun k => decide (k < 8))) := by
    refine List.filter_congr (fun k _ => ?_)
    refine bool_eq_decide ?_
    rw [noiseWord_transpose_iff]
    constructor
    · rintro ⟨_, hr⟩
      exact (grid_lt8 k).mp hr
    · intro hk
      exact ⟨hw, (grid_lt8 k).mpr hk⟩
  rw [hcong]
  decide

/-- Interior-delete rate on the grid for a word inside the delete length
gate: 3% (the band between 0.08 and 0.11). -/
theorem deleteB_gridCount (w : List Char) (g : RandGen) (hw : 4 < w.length) :
    gridCount (fun r => mutatedShorterB w r g) = 3 := by
  unfold gridCount
  have hcong : ((List.range 100).filter
        (fun (k : Nat) => mutatedShorterB w (mkRat (2 * k + 1) 200) g))
      = ((List.range 100).filter (fun k => decide (8 ≤ k ∧ k < 11))) := by
    refine List.filter_congr (fun k _ => ?_)
    refine bool_eq_decide ?_
    rw [noiseWord_delete_iff]
    constructor
    · rintro ⟨_, hge, hlt⟩
      exact ⟨(grid_le8 k).mp hge, (grid_lt11 k).mp hlt⟩
    · rintro ⟨hge, hlt⟩
      exact ⟨hw, (grid_le8 k).mpr hge, (grid_lt11 k).mpr hlt⟩
  rw [hcong]
  decide

/-- C5 (counterexample): for the concrete gate-satisfying word "hello", the
fraction of first-draw grid midpoints on which the transpose action fires is
8 out of 100, not the 5 out of 100 the claim's "effective 5% transpose
chance" asserts. -/
theorem transpose_rate_not_five_pct :
    gridCount (fun r => mutatedSameLenB "hello".data r (constGen 0)) = 8 ∧
    ¬ gridCount (fun r => mutatedSameLenB "hello".data r (constGen 0)) = 5 := by
  exact ⟨by decide, by decide⟩

/-- C5 (amended): each word draws exactly one fresh `r` and takes at most
one action, decided by the nested thresholds tried in priority order (drop
iff `len < 4 ∧ r < 0.03`; transpose iff `len > 3 ∧ r < 0.08`; interior
delete iff `len > 4 ∧ 0.08 ≤ r < 0.11`; otherwise keep); on words
satisfying the respective length gates, the effective grid chances of drop,
transpose and delete are 3%, 8% and 3% (not 3%, 5%, 3%: the drop and
transpose length gates are disjoint, so drop never shaves the transpose
band). -/
theorem noise_rules_characterization :
    (∀ (w : List Char) (r : ℚ) (g : RandGen),
      ((noiseWord w r g).1 = none ↔ (w.length < 4 ∧ r < mkRat 3 100)) ∧
      (mutatedSameLenB w r g = true ↔ (3 < w.length ∧ r < mkRat 8 100)) ∧
      (mutatedShorterB w r g = true ↔
        (4 < w.length ∧ mkRat 8 100 ≤ r ∧ r < mkRat 11 100)) ∧
      (¬ (w.length < 4 ∧ r < mkRat 3 100) →
        ¬ (3 < w.length ∧ r < mkRat 8 100) →
        ¬ (4 < w.length ∧ r < mkRat 11 100) →
        noiseWord w r g = (some w, g))) ∧
    (∀ (ws : List (List Char)) (g : RandGen),
      (noiseWords ws g).2.fidx = g.fidx + ws.length) ∧
    (∀ (w : List Char) (g : RandGen),
      (w.length < 4 → gridCount (fun r => droppedB w r g) = 3) ∧
      (3 < w.length → gridCount (fun r => mutatedSameLenB w r g) = 8) ∧
      (4 < w.length → gridCount (fun r => mutatedShorterB w r g) = 3)) := by
  refine ⟨fun w r g => ⟨noiseWord_drop_iff w r g, noiseWord_transpose_iff w r g,
    noiseWord_delete_iff w r g, noiseWord_keep w r g⟩, noiseWords_fidx,
    fun w g => ⟨droppedB_gridCount w g, transposeB_gridCount w g,
      deleteB_gridCount w g⟩⟩

/-- C5 (witness): the amended characterisation applied to the concrete word
"pizza" (length 5, satisfying all of the transpose and delete gates) at a
concrete draw and generator. -/
theorem noise_rules_characterization_w :
    (3 < ("pizza".data : List Char).length) ∧
    gridCount (fun r => mutatedSameLenB "pizza".data r (constGen 0)) = 8 :=
  ⟨by decide,
    (noise_rules_characterization.2.2 "pizza".data (constGen 0)).2.1 (by decide)⟩

/-- A draw at or above 0.11 fires no rule and keeps the word. -/
theorem noiseWord_keep_of_ge (w : List Char) (r : ℚ) (g : RandGen)
    (hr : mkRat 11 100 ≤ r) : noiseWord w r g = (some w, g) := by
  have c1 : mkRat 3 100 ≤ mkRat 11 100 := by decide
  have c2 : mkRat 8 100 ≤ mkRat 11 100 := by decide
  apply noiseWord_keep
  · rintro ⟨_, hlt⟩
    exact absurd (lt_of_lt_of_le hlt (le_trans c1 hr)) (lt_irrefl r)
  · rintro ⟨_, hlt⟩
    exact absurd (lt_of_lt_of_le hlt (le_trans c2 hr)) (lt_irrefl r)
  · rintro ⟨_, hlt⟩
    exact absurd (lt_of_lt_of_le hlt hr) (lt_irrefl r)

/-- When every available draw is at or above 0.11, the word loop keeps every
word unchanged. -/
theorem noiseWords_keep_all :
    ∀ (ws : List (List Char)) (g : RandGen),
      (∀ i, mkRat 11 100 ≤ g.floats i) → (noiseWords ws g).1 = ws
  | [], _, _ => rfl
  | w :: rest, g, hf => by
    simp only [noiseWords, RandGen.rand]
    rw [noiseWord_keep_of_ge w _ _ (hf g.fidx)]
    simp only []
    rw [noiseWords_keep_all rest ⟨g.floats, g.fidx + 1, g.ints, g.iidx⟩
      (fun i => hf i)]

/-- C10: whenever the per-word path runs and no rule fires for any word
(here forced by keeping every draw in `[0.11, 0.8]`), the output is exactly
the input's words joined by single spaces — so runs of whitespace are
collapsed and byte-identity can fail with zero mutations, as the concrete
tab-containing input shows. -/
theorem augment_no_rule_collapses_whitespace :
    (∀ (text : List Char) (g : RandGen),
      (∀ i, mkRat 11 100 ≤ g.floats i ∧ g.floats i ≤ mkRat 4 5) →
      (augment_text_with_noise text g).1 = joinSp (pySplit text)) ∧
    ¬ (augment_text_with_noise "a \t b".data (constGen (mkRat 1 2))).1
        = "a \t b".data := by
  constructor
  · intro text g hf
    by_cases ht : text = []
    · subst ht
      simp [augment_text_with_noise, pySplit, pySplitAux, joinSp]
    · rw [augment_no_skip text g ht (not_lt.mpr (hf g.fidx).2)]
      simp only []
      rw [noiseWords_keep_all (pySplit text)
        ⟨g.floats, g.fidx + 1, g.ints, g.iidx⟩ (fun i => (hf i).1)]
  · decide

/-- C10 (witness): the collapse equation applied to a concrete double-spaced
text and generator. -/
theorem augment_no_rule_collapses_whitespace_w :
    (augment_text_with_noise "x  y".data (constGen (mkRat 1 2))).1
      = joinSp (pySplit "x  y".data) :=
  augment_no_rule_collapses_whitespace.1 "x  y".data (constGen (mkRat 1 2))
    (fun i => show mkRat 11 100 ≤ mkRat 1 2 ∧ mkRat 1 2 ≤ mkRat 4 5 from
      ⟨by decide, by decide⟩)

/-- A word step only reads the integer stream at the current cursor: equal
cursor and equal current value give equal word output and equal new
cursor. -/
theorem noiseWord_same (w : List Char) (r : ℚ) (g h : RandGen)
    (hii : g.iidx = h.iidx) (hint : g.ints g.iidx = h.ints h.iidx) :
    (noiseWord w r g).1 = (noiseWord w r h).1 ∧
    (noiseWord w r g).2.iidx = (noiseWord w r h).2.iidx := by
  have hint2 : g.ints h.iidx = h.ints h.iidx := hii ▸ hint
  unfold noiseWord RandGen.randint
  split_ifs <;> simp [hii, hint2]

/-- The word loop reads only the next `ws.length` float draws and at most
the next `ws.length` integer draws: generators agreeing there produce the
same surviving-word list. -/
theorem noiseWords_congr :
    ∀ (ws : List (List Char)) (g h : RandGen),
      g.fidx = h.fidx → g.iidx = h.iidx →
      (∀ i, i < g.fidx + ws.length → g.floats i = h.floats i) →
      (∀ i, i < g.iidx + ws.length → g.ints i = h.ints i) →
      (noiseWords ws g).1 = (noiseWords ws h).1
  | [], _, _, _, _, _, _ => rfl
  | w :: rest, g, h, hfx, hix, hfl, hin => by
    have hr : g.floats g.fidx = h.floats h.fidx := by
      rw [← hfx]
      exact hfl g.fidx (by simp only [List.length_cons]; omega)
    simp only [noiseWords, RandGen.rand]
    rw [← hr]
    have hsame := noiseWord_same w (g.floats g.fidx)
      ⟨g.floats, g.fidx + 1, g.ints, g.iidx⟩
      ⟨h.floats, h.fidx + 1, h.ints, h.iidx⟩
      hix
      (by
        show g.ints g.iidx = h.ints h.iidx
        rw [← hix]
        exact hin g.iidx (by simp only [List.length_cons]; omega))
    have hrec :
        (noiseWords rest (noiseWord w (g.floats g.fidx)
          ⟨g.floats, g.fidx + 1, g.ints, g.iidx⟩).2).1
        = (noiseWords rest (noiseWord w (g.floats g.fidx)
          ⟨h.floats, h.fidx + 1, h.ints, h.iidx⟩).2).1 := by
      apply noiseWords_congr rest
      · rw [noiseWord_fidx, noiseWord_fidx]
        show g.fidx + 1 = h.fidx + 1
        omega
      · exact hsame.2
      · intro i hi
        rw [noiseWord_floats, noiseWord_floats]
        apply hfl
        rw [noiseWord_fidx] at hi
        simp only [List.length_cons]
        revert hi
        show i < g.fidx + 1 + rest.length → i < g.fidx + (rest.length + 1)
        omega
      · intro i hi
        rw [noiseWord_ints, noiseWord_ints]
        apply hin
        have hle2 : (noiseWord w (g.floats g.fidx)
            ⟨g.floats, g.fidx + 1, g.ints, g.iidx⟩).2.iidx ≤ g.iidx + 1 :=
          noiseWord_iidx_le w (g.floats g.fidx)
            ⟨g.floats, g.fidx + 1, g.ints, g.iidx⟩
        simp only [List.length_cons]
        omega
    cases hc : (noiseWord w (g.floats g.fidx)
        ⟨g.floats, g.fidx + 1, g.ints, g.iidx⟩).1 with
    | none =>
      have hc2 : (noiseWord w (g.floats g.fidx)
          ⟨h.floats, h.fidx + 1, h.ints, h.iidx⟩).1 = none := by
        rw [← hsame.1, hc]
      simp only [hc, hc2]
      exact hrec
    | some w2 =>
      have hc2 : (noiseWord w (g.floats g.fidx)
          ⟨h.floats, h.fidx + 1, h.ints, h.iidx⟩).1 = some w2 := by
        rw [← hsame.1, hc]
      simp only [hc, hc2]
      rw [hrec]

/-- Generator stream for two successive augmenter calls: proceed + transpose
on the first call, skip on the second. -/
def twoCallGen : RandGen :=
  ⟨fun i => if i = 0 then mkRat 1 2 else if i = 1 then mkRat 1 20
    else mkRat 9 10, 0, fun _ => 0, 0⟩

/-- C6 (counterexample): the augmenter has no seed parameter — it consumes
the shared global random stream — so with one fixed stream (one fixed seed),
calling it twice on the same text gives different outputs: the first call
advances the stream, and here the first call transposes "hello" while the
second call skips. -/
theorem augment_twice_differs :
    ¬ (augment_text_with_noise "hello".data twoCallGen).1 =
      (augment_text_with_noise "hello".data
        (augment_text_with_noise "hello".data twoCallGen).2).1 := by
  decide

/-- C6 (amended): a single augmenter call is a deterministic function of the
input text and the consumed portion of the random stream — two generator
states with equal cursors that agree on the next `1 + #words` float draws
and the next `#words` integer draws produce byte-identical output.  (Equal
state, not merely equal seed, is required: successive calls on the same
seeded stream differ, as the counterexample shows.) -/
theorem augment_depends_on_consumed_draws :
    ∀ (text : List Char) (g h : RandGen),
      g.fidx = h.fidx → g.iidx = h.iidx →
      (∀ i, i < g.fidx + 1 + (pySplit text).length → g.floats i = h.floats i) →
      (∀ i, i < g.iidx + (pySplit text).length → g.ints i = h.ints i) →
      (augment_text_with_noise text g).1 = (augment_text_with_noise text h).1 := by
  intro text g h hfx hix hfl hin
  by_cases ht : text = []
  · subst ht
    rfl
  · have hr : g.floats g.fidx = h.floats h.fidx := by
      rw [← hfx]
      exact hfl g.fidx (by omega)
    by_cases hskip : mkRat 4 5 < g.floats g.fidx
    · rw [augment_skip_of_gt text g ht hskip,
        augment_skip_of_gt text h ht (by rw [← hr]; exact hskip)]
    · rw [augment_no_skip text g ht hskip,
        augment_no_skip text h ht (by rw [← hr]; exact hskip)]
      simp only []
      congr 1
      apply noiseWords_congr (pySplit text)
      · show g.fidx + 1 = h.fidx + 1
        omega
      · exact hix
      · intro i hi
        exact hfl i (by
          revert hi
          show i < g.fidx + 1 + (pySplit text).length →
            i < g.fidx + 1 + (pySplit text).length
          exact id)
      · intro i hi
        exact hin i hi
  
/-- C6 (witness): two generators agreeing on the consumed draws (but not
elsewhere) give identical output on a concrete text. -/
theorem augment_depends_on_consumed_draws_w :
    (augment_text_with_noise "hi".data
        (RandGen.mk (fun i => if i = 5 then 0 else mkRat 1 2) 0
          (fun _ => 0) 0)).1
      = (augment_text_with_noise "hi".data (constGen (mkRat 1 2))).1 :=
  augment_depends_on_consumed_draws "hi".data _ _ rfl rfl
    (fun i hi => by
      have hl : 0 + 1 + (pySplit "hi".data).length = 2 := by decide
      rw [hl] at hi
      show (if i = 5 then (0 : ℚ) else mkRat 1 2) = mkRat 1 2
      rw [if_neg (by omega)])
    (fun _ _ => rfl)

/-! ## Lemmas: label vocabulary and STM parser -/

/-- Every id in the vocabulary is at most 5. -/
theorem label2id_le5 (s : List Char) (n : Nat)
    (h : label2id s = some n) : n ≤ 5 := by
  unfold label2id at h
  cases hf : LABEL2ID.find? (fun p => decide (p.1 = s)) with
  | none =>
    rw [hf] at h
    simp at h
  | some pr =>
    rw [hf] at h
    simp only [Option.map_some', Option.some.injEq] at h
    have hmem := List.mem_of_find?_eq_some hf
    simp only [LABEL2ID, List.mem_cons, List.not_mem_nil, or_false] at hmem
    rcases hmem with h6|h6|h6|h6|h6|h6 <;> (subst h6; simp at h; omega)

/-- Elements not satisfying `p` survive `dropWhile p`. -/
theorem mem_dropWhile_of_neg {p : Char → Bool} :
    ∀ (l : List Char) (c : Char), c ∈ l → p c = false → c ∈ l.dropWhile p
  | d :: rest, c, hc, hp => by
    by_cases hd : p d
    · rw [List.dropWhile_cons_of_pos hd]
      rcases List.mem_cons.mp hc with rfl | hc2
      · rw [hp] at hd
        exact absurd hd (by simp)
      · exact mem_dropWhile_of_neg rest c hc2 hp
    · rw [List.dropWhile_cons_of_neg hd]
      exact hc

/-- The head of a non-empty `dropWhile p` result does not satisfy `p`. -/
theorem dropWhile_head_neg {p : Char → Bool} :
    ∀ (l : List Char) (c : Char) (t : List Char),
      l.dropWhile p = c :: t → p c = false
  | d :: rest, c, t, h => by
    by_cases hd : p d
    · rw [List.dropWhile_cons_of_pos hd] at h
      exact dropWhile_head_neg rest c t h
    · rw [List.dropWhile_cons_of_neg hd] at h
      cases h
      exact Bool.not_eq_true _ ▸ (by simpa using hd)
  | [], c, t, h => by simp at h

/-- A non-empty stripped string contains a non-whitespace character. -/
theorem pyStrip_has_nonws (l : List Char) (h : ¬ pyStrip l = []) :
    ∃ c, c ∈ pyStrip l ∧ c.isWhitespace = false := by
  unfold pyStrip stripWhile at h ⊢
  cases ht : l.dropWhile Char.isWhitespace with
  | nil =>
    rw [ht] at h
    simp at h
  | cons c t =>
    have hc : c.isWhitespace = false := dropWhile_head_neg l c t ht
    refine ⟨c, ?_, hc⟩
    rw [List.mem_reverse]
    exact mem_dropWhile_of_neg _ c
      (List.mem_reverse.mpr (List.mem_cons_self c t)) hc

/-- Any record produced from one STM line has a valid label, the `stm`
source tag, and non-blank text. -/
theorem parseStmLine_mem (line : List Char) (r : LabeledRecord)
    (hr : r ∈ parseStmLine line) :
    r.label ≤ 5 ∧ r.source = "stm".data ∧ ¬ r.text = [] ∧
      ∃ c, c ∈ r.text ∧ c.isWhitespace = false := by
  unfold parseStmLine at hr
  split_ifs at hr with h1 h2
  · simp at hr
  · simp at hr
  · split at hr
    · simp at hr
    · rename_i tag after heq
      split_ifs at hr with h3
      · simp at hr
      · split at hr
        · simp at hr
        · rename_i cefr hcefr
          split at hr
          · rename_i id hid
            simp only [List.mem_singleton] at hr
            subst hr
            exact ⟨label2id_le5 _ _ hid, rfl, h3, pyStrip_has_nonws after h3⟩
          · simp at hr

/-- C9: the STM parser is total (the embedding is a plain function), every
record it emits has label in [0,5], source "stm", and text with at least one
non-whitespace character; and blank lines, comment lines, bracket-less
lines, empty-trailing-text lines and label-less lines each contribute zero
records. -/
theorem parse_stm_safety :
    (∀ (content : List Char) (r : LabeledRecord),
        r ∈ parse_stm_file content →
        r.label ≤ 5 ∧ r.source = "stm".data ∧ ¬ r.text = [] ∧
          ∃ c, c ∈ r.text ∧ c.isWhitespace = false) ∧
    (∀ line, pyStrip line = [] → parseStmLine line = []) ∧
    (∀ line, startsWithSemis (pyStrip line) = true → parseStmLine line = []) ∧
    (∀ line, findTag (pyStrip line) = none → parseStmLine line = []) ∧
    (∀ line tag after, findTag (pyStrip line) = some (tag, after) →
        pyStrip after = [] → parseStmLine line = []) ∧
    (∀ line tag after, findTag (pyStrip line) = some (tag, after) →
        findCefr (splitOnChar ',' (stripAngles tag)) = none →
        parseStmLine line = []) := by
  refine ⟨?_, ?_, ?_, ?_, ?_, ?_⟩
  · intro content r hr
    unfold parse_stm_file at hr
    rcases List.mem_flatMap.mp hr with ⟨line, _, hline⟩
    exact parseStmLine_mem line r hline
  · intro line h
    unfold parseStmLine
    simp [h]
  · intro line h
    unfold parseStmLine
    simp [h]
  · intro line h
    unfold parseStmLine
    simp [h]
  · intro line tag after hft h
    unfold parseStmLine
    simp [hft, h]
  · intro line tag after hft h
    unfold parseStmLine
    simp [hft, h]

/-- C9 (witness): the invariant applied to the record parsed from a concrete
well-formed STM line. -/
theorem parse_stm_safety_w :
    ((⟨"nice to meet you".data, 1, "stm".data⟩ : LabeledRecord)
        ∈ parse_stm_file "f1 1 spk 0 2 <o,Q2,A2,P1> nice to meet you".data) ∧
    ((⟨"nice to meet you".data, 1, "stm".data⟩ : LabeledRecord).label ≤ 5 ∧
      (⟨"nice to meet you".data, 1, "stm".data⟩ : LabeledRecord).source
        = "stm".data ∧
      ¬ (⟨"nice to meet you".data, 1, "stm".data⟩ : LabeledRecord).text = [] ∧
      ∃ c, c ∈ (⟨"nice to meet you".data, 1, "stm".data⟩ : LabeledRecord).text ∧
        c.isWhitespace = false) :=
  ⟨by decide, parse_stm_safety.1
    "f1 1 spk 0 2 <o,Q2,A2,P1> nice to meet you".data
    ⟨"nice to meet you".data, 1, "stm".data⟩ (by decide)⟩

/-- C3 (counterexample): `map_hf_labels` uses `LABEL2ID.get(label, 0)`, so a
row whose level string "Z9" maps to no vocabulary entry is still emitted —
with the substitute label 0 (A1) — instead of being dropped. -/
theorem map_hf_substitutes_label_zero :
    map_hf_labels ⟨"some text".data, "Z9".data⟩
      = ⟨"some text".data, 0, "hf".data⟩ ∧
    label2id (pyStrip (pyUpper "Z9".data)) = none := by
  exact ⟨by decide, by decide⟩

/-- C3 (amended): every emitted record's label is a valid vocabulary id in
[0,5]; the STM parser, the written-corpus rows and both level decisions of
the remote-dataset adapter drop unmappable rows, but `map_hf_labels`
substitutes label 0 for an unmapped level instead of dropping the row. -/
theorem record_labels_valid_amended :
    (∀ (content : List Char) (r : LabeledRecord),
        r ∈ parse_stm_file content → r.label ≤ 5) ∧
    (∀ (t : Option (List Char)) (raw : List Char) (r : LabeledRecord),
        r ∈ wiRowEntries t raw → r.label ≤ 5) ∧
    (∀ (lv : Option Int) (n : Nat), universalNumericLabel lv = some n → n ≤ 5) ∧
    (∀ (s : List Char) (n : Nat), universalStringLabel s = some n → n ≤ 5) ∧
    (∀ ex : HfExample, (map_hf_labels ex).label ≤ 5) := by
  refine ⟨?_, ?_, ?_, ?_, ?_⟩
  · intro content r hr
    unfold parse_stm_file at hr
    rcases List.mem_flatMap.mp hr with ⟨line, _, hline⟩
    exact (parseStmLine_mem line r hline).1
  · intro t raw r hr
    unfold wiRowEntries at hr
    split at hr
    · simp at hr
    · split_ifs at hr with h1
      · simp at hr
      · split at hr
        · simp at hr
        · rename_i id hid
          rcases List.mem_map.mp hr with ⟨c, _, hc⟩
          subst hc
          exact label2id_le5 _ _ hid
  · intro lv n h
    unfold universalNumericLabel at h
    cases lv with
    | none => exact Option.noConfusion h
    | some m =>
      change (if 0 ≤ m ∧ m ≤ 5 then some m.toNat else none) = some n at h
      split_ifs at h with hm
      simp only [Option.some.injEq] at h
      omega
  · intro s n h
    exact label2id_le5 _ _ h
  · intro ex
    unfold map_hf_labels
    cases hl : label2id (pyStrip (pyUpper ex.cefr_level)) with
    | none => simp [hl]
    | some m =>
      simp only [hl, Option.getD_some]
      exact label2id_le5 _ _ hl

/-- C3 (witness): the validity invariant applied to a record parsed from a
concrete STM line. -/
theorem record_labels_valid_amended_w :
    ((⟨"good morning".data, 0, "stm".data⟩ : LabeledRecord)
        ∈ parse_stm_file "g1 1 s 0 1 <o,A1> good morning".data) ∧
    (⟨"good morning".data, 0, "stm".data⟩ : LabeledRecord).label ≤ 5 :=
  ⟨by decide, record_labels_valid_amended.1
    "g1 1 s 0 1 <o,A1> good morning".data
    ⟨"good morning".data, 0, "stm".data⟩ (by decide)⟩

/-- C2 (code bug): `chunk_text` filters out short chunks with no
only-chunk exception, contradicting its own comment "Filter very short
chunks unless they are the only one": the two-word document "hi there" with
the default `min_words = 5` produces one (sole) chunk and the function
returns the empty list — the document is silently lost. -/
theorem chunk_text_drops_sole_short_chunk :
    chunk_text "hi there".data 5 50 = [] := by
  decide

/-! ## Lemmas: word-sequence preservation of the chunker -/

/-- Splitting distributes over a whitespace separator. -/
theorem pySplitAux_append_ws {c : Char} (hc : c.isWhitespace = true) :
    ∀ (s t cur : List Char),
      pySplitAux (s ++ c :: t) cur = pySplitAux s cur ++ pySplitAux t []
  | [], t, cur => by
    rw [List.nil_append]
    rw [show pySplitAux (c :: t) cur
        = if c.isWhitespace
          then (if cur = [] then pySplitAux t []
            else cur.reverse :: pySplitAux t [])
          else pySplitAux t (c :: cur) from rfl]
    rw [if_pos hc]
    by_cases h : cur = [] <;> simp [pySplitAux, h]
  | d :: s2, t, cur => by
    have hstep : ∀ (rest cu : List Char),
        pySplitAux (d :: rest) cu = if d.isWhitespace
          then (if cu = [] then pySplitAux rest []
            else cu.reverse :: pySplitAux rest [])
          else pySplitAux rest (d :: cu) := fun _ _ => rfl
    rw [List.cons_append, hstep, hstep]
    by_cases hd : d.isWhitespace
    · rw [if_pos hd, if_pos hd]
      by_cases h : cur = []
      · rw [if_pos h, if_pos h]
        exact pySplitAux_append_ws hc s2 t []
      · rw [if_neg h, if_neg h]
        rw [pySplitAux_append_ws hc s2 t []]
        rfl
    · rw [if_neg hd, if_neg hd]
      exact pySplitAux_append_ws hc s2 t (d :: cur)

/-- A leading whitespace character is ignored by the tokenizer. -/
theorem pySplit_cons_ws {c : Char} (hc : c.isWhitespace = true)
    (t : List Char) : pySplit (c :: t) = pySplit t := by
  unfold pySplit
  rw [show pySplitAux (c :: t) []
      = if c.isWhitespace
        then (if ([] : List Char) = [] then pySplitAux t []
          else ([] : List Char).reverse :: pySplitAux t [])
        else pySplitAux t (c :: []) from rfl]
  rw [if_pos hc, if_pos rfl]

/-- The words of a space-join are the concatenation of the words of the
parts. -/
theorem pySplit_joinSp : ∀ (l : List (List Char)),
    pySplit (joinSp l) = l.flatMap pySplit
  | [] => rfl
  | [w] => by simp [joinSp]
  | w :: v :: rest => by
    show pySplit (w ++ ' ' :: joinSp (v :: rest)) = _
    unfold pySplit
    rw [pySplitAux_append_ws (by decide) w (joinSp (v :: rest)) []]
    rw [show pySplitAux (joinSp (v :: rest)) []
        = pySplit (joinSp (v :: rest)) from rfl]
    rw [pySplit_joinSp (v :: rest)]
    rw [List.flatMap_cons]
    rfl

/-- The sentence splitter cuts only inside removed whitespace runs, so the
concatenated words of its units are the words of the document. -/
theorem sentSplitGo_words :
    ∀ (cs : List Char),
      (∀ cur, (sentSplitGo false cs cur).flatMap pySplit
          = pySplit (cur.reverse ++ cs)) ∧
      ((sentSplitGo true cs []).flatMap pySplit = pySplit cs)
  | [] => by
    constructor
    · intro cur
      show pySplit cur.reverse ++ [] = pySplit (cur.reverse ++ [])
      simp
    · show pySplit [] ++ [] = pySplit []
      simp
  | c :: rest => by
    have IH := sentSplitGo_words rest
    constructor
    · intro cur
      rw [show sentSplitGo false (c :: rest) cur
          = if c.isWhitespace && headIsSentEnd cur
            then cur.reverse :: sentSplitGo true rest []
            else sentSplitGo false rest (c :: cur) from rfl]
      by_cases hcond : (c.isWhitespace && headIsSentEnd cur) = true
      · rw [if_pos hcond]
        have hws : c.isWhitespace = true := by
          simp only [Bool.and_eq_true] at hcond
          exact hcond.1
        rw [List.flatMap_cons, IH.2]
        unfold pySplit
        rw [pySplitAux_append_ws hws cur.reverse rest []]
      · rw [if_neg hcond, IH.1 (c :: cur)]
        rw [List.reverse_cons, List.append_assoc]
        rfl
    · rw [show sentSplitGo true (c :: rest) []
          = if c.isWhitespace then sentSplitGo true rest []
            else sentSplitGo false rest (c :: []) from rfl]
      by_cases hws : c.isWhitespace
      · rw [if_pos hws, IH.2, pySplit_cons_ws hws]
      · rw [if_neg hws, IH.1 (c :: [])]
        rfl

/-- The groups built by the chunk loop partition (in order) exactly the
units that contain at least one word. -/
theorem chunkLoop_flatten (maxW : Nat) :
    ∀ (units : List (List Char)) (current : List (List Char)) (curLen : Nat),
      (chunkLoop maxW units current curLen).flatten
        = current ++ units.filter (fun u => !(pySplit u).isEmpty)
  | [], current, _ => by
    by_cases h : current = [] <;> simp [chunkLoop, h]
  | u :: rest, current, curLen => by
    rw [show chunkLoop maxW (u :: rest) current curLen
        = if pySplit u = [] then chunkLoop maxW rest current curLen
          else if maxW < curLen + (pySplit u).length ∧ ¬ current = [] then
            current :: chunkLoop maxW rest [u] (pySplit u).length
          else chunkLoop maxW rest (current ++ [u])
            (curLen + (pySplit u).length) from rfl]
    by_cases h1 : pySplit u = []
    · rw [if_pos h1, chunkLoop_flatten maxW rest current curLen,
        List.filter_cons_of_neg (by simp [h1])]
    · rw [if_neg h1]
      by_cases h2 : maxW < curLen + (pySplit u).length ∧ ¬ current = []
      · rw [if_pos h2, List.flatten_cons,
          chunkLoop_flatten maxW rest [u] (pySplit u).length,
          List.filter_cons_of_pos (by simp [h1])]
        simp
      · rw [if_neg h2, chunkLoop_flatten maxW rest (current ++ [u]) _,
          List.filter_cons_of_pos (by simp [h1])]
        simp

/-- Units without words contribute nothing to the concatenated words. -/
theorem flatMap_filter_pySplit :
    ∀ (units : List (List Char)),
      (units.filter (fun u => !(pySplit u).isEmpty)).flatMap pySplit
        = units.flatMap pySplit
  | [] => rfl
  | u :: rest => by
    by_cases h : (pySplit u).isEmpty = true
    · rw [List.filter_cons_of_neg (by simp [h]),
        flatMap_filter_pySplit rest, List.flatMap_cons,
        List.isEmpty_iff.mp h]
      rfl
    · rw [List.filter_cons_of_pos (by simp [Bool.not_eq_true] at h ⊢; exact h),
        List.flatMap_cons, List.flatMap_cons, flatMap_filter_pySplit rest]

/-- Flattening the groups first does not change the concatenated words. -/
theorem flatMap_flatten_pySplit :
    ∀ (groups : List (List (List Char))),
      groups.flatten.flatMap pySplit
        = groups.flatMap (fun gp => gp.flatMap pySplit)
  | [] => rfl
  | gp :: rest => by
    rw [List.flatten_cons, List.flatMap_append, List.flatMap_cons,
      flatMap_flatten_pySplit rest]

/-- C4 (counterexample): with `min_words = 2, max_words = 3`, the document
"a b c. d." chunks to ["a b c.", "d."], the one-word chunk "d." is
discarded by the filter, and the concatenation of the returned chunks loses
the words of "d.": word-for-word reconstruction fails. -/
theorem chunks_not_reconstruct :
    ¬ pySplit (joinSp (chunk_text "a b c. d.".data 2 3))
      = pySplit "a b c. d.".data := by
  decide

/-- C4 (amended): concatenating the chunks reproduces the original word
sequence exactly when the `min_words` filter discards nothing — stated here
with `min_words = 0`, where the filter keeps every chunk.  (With a positive
`min_words`, discarded short chunks lose their words, as the counterexample
shows.) -/
theorem chunks_reconstruct_without_filter (text : List Char) (maxW : Nat) :
    pySplit (joinSp (chunk_text text 0 maxW)) = pySplit text := by
  unfold chunk_text
  rw [show ((chunkLoop maxW (sentSplit text) [] 0).map joinSp).filter
        (fun c => decide (0 ≤ (pySplit c).length))
      = (chunkLoop maxW (sentSplit text) [] 0).map joinSp from
    List.filter_eq_self.mpr (fun a _ => by simp)]
  rw [pySplit_joinSp]
  have hmap : ∀ (groups : List (List (List Char))),
      (groups.map joinSp).flatMap pySplit
        = groups.flatMap (fun gp => gp.flatMap pySplit) := by
    intro groups
    induction groups with
    | nil => rfl
    | cons gp rest ih =>
      rw [List.map_cons, List.flatMap_cons, List.flatMap_cons, ih,
        pySplit_joinSp]
  rw [hmap, ← flatMap_flatten_pySplit, chunkLoop_flatten, List.nil_append,
    flatMap_filter_pySplit]
  have h := (sentSplitGo_words text).1 []
  simpa using h

/-! ## Lemmas: corpus assembly -/

/-- C7 (counterexample): with every source enabled, the local sources empty
and the remote source loading successfully but yielding zero records, all
enabled sources contribute zero records, yet assembly returns `ok []`
instead of raising the configuration error: the code raises only when the
`all_datasets` list is empty, and the remote dataset is appended even when
empty. -/
theorem assemble_ok_with_zero_records :
    assemble true true true [] [] (some []) = Except.ok [] ∧
    ∀ e, ¬ assemble true true true ([] : List LabeledRecord) [] (some [])
      = Except.error e := by
  refine ⟨rfl, ?_⟩
  intro e h
  rw [show assemble true true true ([] : List LabeledRecord) [] (some [])
      = Except.ok [] from rfl] at h
  exact Except.noConfusion h

/-- C7 (amended): assembly raises the configuration error exactly when no
source contributed a dataset — the speech source disabled or empty, the
written source disabled or empty, and the remote source disabled or failed.
This implies zero records, but not conversely: a successfully loaded, empty
remote dataset is appended and suppresses the error.  In every other
situation the result is `ok` (never a raise). -/
theorem assemble_error_characterization :
    ∀ (u v w : Bool) (stm wi : List LabeledRecord)
      (hf : Option (List LabeledRecord)),
      (assemble u v w stm wi hf = Except.error noDataMsg ↔
        (¬ (u = true ∧ ¬ stm = []) ∧ ¬ (v = true ∧ ¬ wi = []) ∧
          ¬ (w = true ∧ ¬ hf = none))) ∧
      ((¬ assemble u v w stm wi hf = Except.error noDataMsg) →
        ∃ l, assemble u v w stm wi hf = Except.ok l) := by
  intro u v w stm wi hf
  constructor
  · cases u <;> cases v <;> cases w <;> cases hf <;>
      (try by_cases hstm : stm = []) <;> (try by_cases hwi : wi = []) <;>
      simp [assemble, *]
  · cases u <;> cases v <;> cases w <;> cases hf <;>
      (try by_cases hstm : stm = []) <;> (try by_cases hwi : wi = []) <;>
      simp [assemble, *]

/-- C8: with the speech source enabled and non-empty, the assembled corpus
(before the downstream shuffle) starts with exactly the 4-fold duplication
`stm_entries * 4` of the speech records: its length is `4 * N`, every record
in it occurs by value in the original list, with exactly four times its
original multiplicity — exact duplication, not resampling. -/
theorem assemble_oversamples_stm_x4 :
    ∀ (v w : Bool) (stm wi : List LabeledRecord)
      (hf : Option (List LabeledRecord)), ¬ stm = [] →
      (∃ rest, assemble true v w stm wi hf
        = Except.ok (pyListMul stm 4 ++ rest)) ∧
      (pyListMul stm 4).length = 4 * stm.length ∧
      (∀ r : LabeledRecord, (pyListMul stm 4).count r = 4 * stm.count r) ∧
      (∀ r : LabeledRecord, r ∈ pyListMul stm 4 → r ∈ stm) := by
  intro v w stm wi hf hstm
  have hmul : pyListMul stm 4 = stm ++ (stm ++ (stm ++ (stm ++ []))) := rfl
  refine ⟨?_, ?_, ?_, ?_⟩
  · refine ⟨((if v = true ∧ ¬ wi = [] then [wi] else [])
      ++ (match w, hf with
        | true, some l => [l]
        | _, _ => [])).flatten, ?_⟩
    cases v <;> cases w <;> cases hf <;>
      (try by_cases hwi : wi = []) <;>
      simp [assemble, hstm, List.flatten_append, List.append_assoc, hwi]
  · rw [hmul]
    simp [List.length_append]
    omega
  · intro r
    rw [hmul]
    simp [List.count_append]
    omega
  · intro r hr
    rw [hmul] at hr
    simp only [List.mem_append, List.not_mem_nil, or_false] at hr
    rcases hr with h|h|h|h <;> exact h

/-- C8 (witness): the oversampling shape applied to a concrete one-record
speech list. -/
theorem assemble_oversamples_stm_x4_w :
    (¬ ([⟨"go on".data, 2, "stm".data⟩] : List LabeledRecord) = []) ∧
    ((∃ rest, assemble true false false
        [(⟨"go on".data, 2, "stm".data⟩ : LabeledRecord)] [] none
        = Except.ok (pyListMul [⟨"go on".data, 2, "stm".data⟩] 4 ++ rest)) ∧
      (pyListMul [(⟨"go on".data, 2, "stm".data⟩ : LabeledRecord)] 4).length
        = 4 * ([(⟨"go on".data, 2, "stm".data⟩ : LabeledRecord)]).length ∧
      (∀ r : LabeledRecord,
        (pyListMul [(⟨"go on".data, 2, "stm".data⟩ : LabeledRecord)] 4).count r
          = 4 * ([(⟨"go on".data, 2, "stm".data⟩ : LabeledRecord)]).count r) ∧
      (∀ r : LabeledRecord,
        r ∈ pyListMul [(⟨"go on".data, 2, "stm".data⟩ : LabeledRecord)] 4 →
          r ∈ [(⟨"go on".data, 2, "stm".data⟩ : LabeledRecord)])) :=
  ⟨by decide, assemble_oversamples_stm_x4 false false
    [⟨"go on".data, 2, "stm".data⟩] [] none (by decide)⟩

/-- C7 (witness): the error characterisation instantiated at concrete
arguments (all sources disabled). -/
theorem assemble_error_characterization_w :
    ((assemble false false false ([] : List LabeledRecord) [] none
        = Except.error noDataMsg ↔
      (¬ (false = true ∧ ¬ ([] : List LabeledRecord) = []) ∧
        ¬ (false = true ∧ ¬ ([] : List LabeledRecord) = []) ∧
        ¬ (false = true ∧ ¬ (none : Option (List LabeledRecord)) = none))) ∧
      ((¬ assemble false false false ([] : List LabeledRecord) [] none
          = Except.error noDataMsg) →
        ∃ l, assemble false false false ([] : List LabeledRecord) [] none
          = Except.ok l)) :=
  assemble_error_characterization false false false [] [] none
